import Mathlib

/-
Verification of the two-phase rendezvous barrier in
src/encoding/nn/syncbn.py (class SharedTensor) and of the
_SyncBatchNorm constructor, against the natural-language specification.

The barrier is embedded as a small-step transition system: each worker
thread executes the body of SharedTensor.__call__, and every
lock-protected section of that body (lines 140-145, 146-150, 152-158,
159-163) is one atomic step, plus the final unlocked read of line 165.
Machine integers are modelled as Int (Python integers are unbounded),
tensors as lists of Int values, and Python IndexError as Option.none.
-/

namespace SyncBN

/-- Modelled from the spec: the helper computing one output column of the
Reducer.  For a buffer `xs` viewed as consecutive groups of `arity`
values, `colSum arity xs k` is the sum over all groups of each group's
`k`-th element. -/
def colSum (arity : Nat) (xs : List Int) (k : Nat) : Int :=
  ((List.range (xs.length / arity)).map (fun g => xs.getD (g * arity + k) 0)).sum

/-- Modelled from the spec: the function `allreduce` imported from
`encoding.parallel` is not part of src/; the spec (section 6, Reducer)
states that given `arity * worker_count` values it returns the same
number of values where output group `g`'s `k`-th element equals the
elementwise sum across all input groups' `k`-th elements, replicated
into every output group. -/
def allreduce (arity : Nat) (xs : List Int) : List Int :=
  (List.range xs.length).map (fun i => colSum arity xs (i % arity))

/-- Python list indexing `l[i]` for a possibly negative integer index:
negative indices count from the end, and an out-of-range index raises
IndexError, modelled as `none`. -/
def pyGetItem (l : List Int) (i : Int) : Option Int :=
  if 0 ≤ i then l[i.toNat]?
  else if 0 ≤ i + (l.length : Int) then l[(i + (l.length : Int)).toNat]?
  else none

/-- Program counter of one call of `SharedTensor.__call__`.  Each value
names the next atomic section the caller will execute:
`push` = the critical section at lines 140-145; `waitPush` = the wait
at lines 146-150 (leaves only when `push_tasks == 0`); `reduce` = the
critical section at lines 152-158; `waitReduce` = the wait at lines
159-163 (leaves only when `reduce_tasks == 0`); `readOut` = the
unlocked read at line 165; `done` = returned.  `assertAborted` is a
call killed by the `assert` at line 154, and `reducerError` a call
killed by an exception raised inside `allreduce` at line 155. -/
inductive PC where
  | push
  | waitPush
  | reduce
  | waitReduce
  | readOut
  | done
  | assertAborted
  | reducerError
deriving DecidableEq, Repr

/-- Local state of one call: its program counter, the slot token `idx`
computed at line 144, the pair returned at line 165 (`none` until the
call returns; each component is `none` if that index raised
IndexError), and whether this call executed the `allreduce` invocation
at line 155. -/
structure TState where
  pc : PC
  idx : Int
  res : Option (Option Int × Option Int)
  invoked : Bool
deriving DecidableEq, Repr

/-- Global configuration: the fields of the `SharedTensor` object
(`nGPUs`, `list`, `push_tasks`, `reduce_tasks`, lines 127-136) together
with the local states of `m` call instances. -/
structure Config (m : Nat) where
  nGPUs : Nat
  list : List Int
  push_tasks : Int
  reduce_tasks : Int
  threads : Fin m → TState

/-- `SharedTensor._clear` (lines 133-136): empty the buffer and restore
both counters to `nGPUs`. -/
def clearShared (c : Config m) : Config m :=
  { c with list := [], push_tasks := (c.nGPUs : Int), reduce_tasks := (c.nGPUs : Int) }

/-- Local state of a call that has not started: about to execute the
push section, nothing computed yet. -/
def initTS : TState :=
  { pc := PC.push, idx := 0, res := none, invoked := false }

/-- Fresh `SharedTensor(n)` (lines 127-136) with `n` calls about to
begin: empty buffer, both counters at `n`. -/
def initConfig (n : Nat) : Config n :=
  { nGPUs := n, list := [], push_tasks := (n : Int), reduce_tasks := (n : Int),
    threads := fun _ => initTS }

/-- The push critical section, lines 140-145: if `push_tasks == 0` run
`_clear`; extend `list` with the contribution; compute
`idx = nGPUs - push_tasks` before decrementing; decrement
`push_tasks`. -/
def pushStep (contrib : List Int) (c : Config m) (i : Fin m) : Config m :=
  let c1 := if c.push_tasks = 0 then clearShared c else c
  { c1 with
      list := c1.list ++ contrib,
      push_tasks := c1.push_tasks - 1,
      threads := Function.update c1.threads i
        { c1.threads i with pc := PC.waitPush, idx := (c1.nGPUs : Int) - c1.push_tasks } }

/-- Move the program counter of call `i` to `p`, changing nothing
else. -/
def setPC (c : Config m) (i : Fin m) (p : PC) : Config m :=
  { c with threads := Function.update c.threads i { c.threads i with pc := p } }

/-- The reduce critical section, lines 152-158, parameterized by the
external Reducer `red` (`red a xs = none` models `allreduce` raising an
exception).  If `reduce_tasks == nGPUs`: assert `len(list) == 2*nGPUs`
(on failure the caller dies and no shared state changes), invoke the
Reducer with arity 2, overwrite `list`, decrement `reduce_tasks`.
Otherwise only decrement `reduce_tasks`. -/
def reduceStep (red : Nat → List Int → Option (List Int)) (c : Config m) (i : Fin m) :
    Config m :=
  if c.reduce_tasks = (c.nGPUs : Int) then
    if c.list.length = 2 * c.nGPUs then
      match red 2 c.list with
      | some ys =>
        { c with
            list := ys,
            reduce_tasks := c.reduce_tasks - 1,
            threads := Function.update c.threads i
              { c.threads i with pc := PC.waitReduce, invoked := true } }
      | none => setPC c i PC.reducerError
    else
      setPC c i PC.assertAborted
  else
    { c with
        reduce_tasks := c.reduce_tasks - 1,
        threads := Function.update c.threads i
          { c.threads i with pc := PC.waitReduce } }

/-- The unlocked read at line 165: `return self.list[2*idx], self.list[2*idx+1]`. -/
def readStep (c : Config m) (i : Fin m) : Config m :=
  { c with
      threads := Function.update c.threads i
        { c.threads i with
            pc := PC.done,
            res := some (pyGetItem c.list (2 * (c.threads i).idx),
                         pyGetItem c.list (2 * (c.threads i).idx + 1)) } }

/-- One atomic step of the barrier: some call instance `i` executes its
next lock-protected section (or the final unlocked read).  The two
wait sections can only be passed when their counter is zero, exactly as
the `while` loops at lines 149 and 162 demand. -/
inductive Step (contribs : Fin m → List Int)
    (red : Nat → List Int → Option (List Int)) : Config m → Config m → Prop where
  | pushS (c : Config m) (i : Fin m) (h : (c.threads i).pc = PC.push) :
      Step contribs red c (pushStep (contribs i) c i)
  | passPush (c : Config m) (i : Fin m) (h : (c.threads i).pc = PC.waitPush)
      (h0 : c.push_tasks = 0) :
      Step contribs red c (setPC c i PC.reduce)
  | reduceS (c : Config m) (i : Fin m) (h : (c.threads i).pc = PC.reduce) :
      Step contribs red c (reduceStep red c i)
  | passReduce (c : Config m) (i : Fin m) (h : (c.threads i).pc = PC.waitReduce)
      (h0 : c.reduce_tasks = 0) :
      Step contribs red c (setPC c i PC.readOut)
  | readS (c : Config m) (i : Fin m) (h : (c.threads i).pc = PC.readOut) :
      Step contribs red c (readStep c i)

/-- The Reducer of the deployed code: `allreduce` with no exception. -/
def normalRed : Nat → List Int → Option (List Int) := fun a xs => some (allreduce a xs)

/-- A Reducer that deterministically raises for every input, used to
analyse error propagation. -/
def failRed : Nat → List Int → Option (List Int) := fun _ _ => none

/-- Executable scheduler step: run the next atomic section of call `i`
if it is enabled, returning `none` if call `i` is blocked or
finished. -/
def execOne (contribs : Fin m → List Int) (red : Nat → List Int → Option (List Int))
    (c : Config m) (i : Fin m) : Option (Config m) :=
  match (c.threads i).pc with
  | PC.push => some (pushStep (contribs i) c i)
  | PC.waitPush => if c.push_tasks = 0 then some (setPC c i PC.reduce) else none
  | PC.reduce => some (reduceStep red c i)
  | PC.waitReduce => if c.reduce_tasks = 0 then some (setPC c i PC.readOut) else none
  | PC.readOut => some (readStep c i)
  | _ => none

/-- Run a concrete schedule: each list entry names the call instance
that executes its next atomic section (skipped when blocked). -/
def runSched (contribs : Fin m → List Int) (red : Nat → List Int → Option (List Int)) :
    Config m → List (Fin m) → Config m
  | c, [] => c
  | c, i :: rest =>
    match execOne contribs red c i with
    | some c1 => runSched contribs red c1 rest
    | none => runSched contribs red c rest

/-- State of the shared object after a completed round, just before the
next round begins: `push_tasks` has reached 0, the buffer still holds
the previous round's (already reduced) values `oldList`, and
`reduce_tasks` holds whatever the previous round left (`r`); `n` fresh
calls are about to begin. -/
def dirtyInit (n : Nat) (oldList : List Int) (r : Int) : Config n :=
  { nGPUs := n, list := oldList, push_tasks := 0, reduce_tasks := r,
    threads := fun _ => initTS }

/-- State carried by the `_BatchNorm` superclass that is relevant here:
the feature count and the `eps` and `momentum` values stored at
construction. -/
structure BatchNormState where
  num_features : Nat
  eps : ℚ
  momentum : ℚ
  sharedWorkerCount : Nat
deriving DecidableEq, Repr

/-- `_SyncBatchNorm.__init__` (lines 27-32): whatever `eps` and
`momentum` the caller supplies, the superclass is initialized with the
literals `eps=1e-5` and `momentum=0.1`, and a `SharedTensor` over the
detected device count is attached.  Numeric literals are modelled as
exact rationals. -/
def syncBatchNormInit (num_features : Nat) (eps momentum : ℚ) (deviceCount : Nat) :
    BatchNormState :=
  { num_features := num_features, eps := 1 / 100000, momentum := 1 / 10,
    sharedWorkerCount := deviceCount }

/-! ### Generic list helpers -/

theorem mem_of_nodup_length_eq {n : Nat} {l : List (Fin n)}
    (hn : l.Nodup) (hl : l.length = n) (a : Fin n) : a ∈ l := by
  have h1 : l.toFinset.card = l.length := List.toFinset_card_of_nodup hn
  have h2 : l.toFinset = Finset.univ := by
    apply Finset.eq_univ_of_card
    rw [h1, hl, Fintype.card_fin]
  have h3 := Finset.mem_univ a
  rw [← h2] at h3
  exact List.mem_toFinset.mp h3

theorem length_lt_of_not_mem {n : Nat} {l : List (Fin n)}
    (hn : l.Nodup) {a : Fin n} (ha : a ∉ l) : l.length < n := by
  rcases lt_or_eq_of_le (by simpa using List.Nodup.length_le_card hn) with h | h
  · exact h
  · exact absurd (mem_of_nodup_length_eq hn h a) ha

theorem sum_map_eq_sum_univ {n : Nat} (l : List (Fin n)) (hn : l.Nodup)
    (hall : ∀ i, i ∈ l) (g : Fin n → Int) : (l.map g).sum = ∑ j, g j := by
  have h2 : l.toFinset = Finset.univ :=
    Finset.eq_univ_iff_forall.mpr (fun x => List.mem_toFinset.mpr (hall x))
  rw [← List.sum_toFinset g hn, h2]

theorem flatten_map_length {ι : Type} (f : ι → List Int) (a : Nat)
    (hf : ∀ i, (f i).length = a) :
    ∀ (l : List ι), ((l.map f).flatten).length = l.length * a
  | [] => by simp
  | x :: t => by
    simp only [List.map_cons, List.flatten_cons, List.length_append, hf,
      flatten_map_length f a hf t, List.length_cons]
    ring

theorem flatten_map_getElem? {ι : Type} (f : ι → List Int) (a : Nat)
    (hf : ∀ i, (f i).length = a) :
    ∀ (l : List ι) (k j : Nat) (hk : k < l.length), j < a →
      ((l.map f).flatten)[k * a + j]? = (f l[k])[j]?
  | x :: t, 0, j, hk, hj => by
    simp only [List.map_cons, List.flatten_cons, Nat.zero_mul, Nat.zero_add]
    rw [List.getElem?_append_left (by rw [hf x]; exact hj)]
    rfl
  | x :: t, k + 1, j, hk, hj => by
    have hix : (k + 1) * a + j = (f x).length + (k * a + j) := by rw [hf x]; ring
    simp only [List.map_cons, List.flatten_cons]
    rw [hix, List.getElem?_append_right (Nat.le_add_right _ _), Nat.add_sub_cancel_left]
    have hk1 : k < t.length := by simpa using Nat.lt_of_succ_lt_succ hk
    rw [flatten_map_getElem? f a hf t k j hk1 hj]
    rfl

theorem sum_range_getD :
    ∀ (xs : List Int), ((List.range xs.length).map (fun g => xs.getD g 0)).sum = xs.sum
  | [] => by simp
  | x :: t => by
    rw [List.length_cons, List.range_succ_eq_map]
    simp only [List.map_cons, List.map_map, List.sum_cons, List.getD_cons_zero,
      Function.comp_def, List.getD_cons_succ]
    rw [sum_range_getD t]

theorem colSum_flatten {ι : Type} (f : ι → List Int) (a : Nat)
    (hf : ∀ i, (f i).length = a) (l : List ι) (j : Nat) (hj : j < a) (ha : 0 < a) :
    colSum a ((l.map f).flatten) j = (l.map (fun i => (f i).getD j 0)).sum := by
  unfold colSum
  rw [flatten_map_length f a hf l, Nat.mul_div_cancel _ ha]
  have hpt : ∀ g ∈ List.range l.length,
      ((l.map f).flatten).getD (g * a + j) 0 = (l.map (fun i => (f i).getD j 0)).getD g 0 := by
    intro g hg
    have hgl : g < l.length := List.mem_range.mp hg
    rw [List.getD_eq_getElem?_getD, flatten_map_getElem? f a hf l g j hgl hj]
    rw [List.getD_eq_getElem?_getD, List.getElem?_map]
    rw [List.getElem?_eq_getElem hgl]
    simp [List.getD_eq_getElem?_getD]
  rw [List.map_congr_left hpt]
  have := sum_range_getD (l.map (fun i => (f i).getD j 0))
  rwa [List.length_map] at this

theorem allreduce_length (a : Nat) (xs : List Int) : (allreduce a xs).length = xs.length := by
  simp [allreduce]

theorem allreduce_getElem? (a : Nat) (xs : List Int) (m : Nat) (hm : m < xs.length) :
    (allreduce a xs)[m]? = some (colSum a xs (m % a)) := by
  simp [allreduce, List.getElem?_range hm]

theorem pyGetItem_natCast (l : List Int) (k : Nat) : pyGetItem l (k : Int) = l[k]? := by
  simp [pyGetItem]

/-! ### Step and scheduler soundness -/

theorem execOne_step {m : Nat} {contribs : Fin m → List Int}
    {red : Nat → List Int → Option (List Int)} {c c1 : Config m} {i : Fin m}
    (hc : execOne contribs red c i = some c1) : Step contribs red c c1 := by
  cases h : (c.threads i).pc <;> simp only [execOne, h] at hc
  case push =>
    cases hc
    exact Step.pushS c i h
  case waitPush =>
    split at hc
    · cases hc
      exact Step.passPush c i h (by assumption)
    · cases hc
  case reduce =>
    cases hc
    exact Step.reduceS c i h
  case waitReduce =>
    split at hc
    · cases hc
      exact Step.passReduce c i h (by assumption)
    · cases hc
  case readOut =>
    cases hc
    exact Step.readS c i h
  case done => cases hc
  case assertAborted => cases hc
  case reducerError => cases hc

theorem runSched_reachable {m : Nat} (contribs : Fin m → List Int)
    (red : Nat → List Int → Option (List Int)) (l : List (Fin m)) (c : Config m) :
    Relation.ReflTransGen (Step contribs red) c (runSched contribs red c l) := by
  induction l generalizing c with
  | nil => exact Relation.ReflTransGen.refl
  | cons i t ih =>
    cases h : execOne contribs red c i with
    | none => simpa [runSched, h] using ih c
    | some c1 =>
      have h2 : runSched contribs red c (i :: t) = runSched contribs red c1 t := by
        simp [runSched, h]
      rw [h2]
      exact Relation.ReflTransGen.head (execOne_step h) (ih c1)

/-! ### The inductive invariant for a single round -/

/-- A call has passed the reduce critical section and decremented
`reduce_tasks`. -/
def departed (p : PC) : Prop :=
  p = PC.waitReduce ∨ p = PC.readOut ∨ p = PC.done

/-- A call has passed the push-phase wait (so it observed
`push_tasks == 0`). -/
def pastWait (p : PC) : Prop :=
  p ≠ PC.push ∧ p ≠ PC.waitPush

theorem departed_pastWait {p : PC} (h : departed p) : pastWait p := by
  rcases h with h | h | h <;> subst h <;> exact ⟨by simp, by simp⟩

/-- Inductive invariant for one round of the barrier run by `n` calls on
a fresh `SharedTensor(n)`, witnessed by the arrival order `ord` (the
calls that have executed the push section, oldest first) and the
departure order `dep` (the calls that have decremented `reduce_tasks`,
oldest first). -/
structure InvW (n : Nat) (contribs : Fin n → List Int)
    (red : Nat → List Int → Option (List Int)) (c : Config n)
    (ord dep : List (Fin n)) : Prop where
  hg : c.nGPUs = n
  onod : ord.Nodup
  dnod : dep.Nodup
  omem : ∀ i, i ∈ ord ↔ (c.threads i).pc ≠ PC.push
  dmem : ∀ i, i ∈ dep ↔ departed (c.threads i).pc
  hidx : ∀ (k : Nat) (hk : k < ord.length), (c.threads ord[k]).idx = (k : Int)
  hpush : c.push_tasks = (n : Int) - ord.length
  hredc : c.reduce_tasks = (n : Int) - dep.length
  hfull : ∀ i, pastWait (c.threads i).pc → ord.length = n
  hlist1 : dep = [] → c.list = (ord.map contribs).flatten
  hlist2 : dep ≠ [] → red 2 ((ord.map contribs).flatten) = some c.list
  hlen2p : dep ≠ [] → ((ord.map contribs).flatten).length = 2 * n
  hinv : ∀ i, (c.threads i).invoked = true ↔ dep.head? = some i
  hdall : ∀ i, (c.threads i).pc = PC.readOut ∨ (c.threads i).pc = PC.done → dep.length = n
  hres : ∀ i, (c.threads i).pc = PC.done →
    (c.threads i).res = some (pyGetItem c.list (2 * (c.threads i).idx),
                              pyGetItem c.list (2 * (c.threads i).idx + 1))

/-- The invariant proper: some arrival and departure orders witness
`InvW`. -/
def Inv (n : Nat) (contribs : Fin n → List Int)
    (red : Nat → List Int → Option (List Int)) (c : Config n) : Prop :=
  ∃ ord dep, InvW n contribs red c ord dep

theorem inv_init (n : Nat) (contribs : Fin n → List Int)
    (red : Nat → List Int → Option (List Int)) :
    Inv n contribs red (initConfig n) := by
  refine ⟨[], [], ?_⟩
  constructor <;> simp [initConfig, initTS, departed, pastWait]

theorem pushStep_eq {m : Nat} {c : Config m} (contrib : List Int) (i : Fin m)
    (h : c.push_tasks ≠ 0) :
    pushStep contrib c i =
      { c with
          list := c.list ++ contrib,
          push_tasks := c.push_tasks - 1,
          threads := Function.update c.threads i
            { c.threads i with pc := PC.waitPush,
                               idx := (c.nGPUs : Int) - c.push_tasks } } := by
  simp [pushStep, h]

theorem push_preserve {n : Nat} {contribs : Fin n → List Int}
    {red : Nat → List Int → Option (List Int)} {c : Config n} {ord dep : List (Fin n)}
    (W : InvW n contribs red c ord dep) {i : Fin n}
    (hpc : (c.threads i).pc = PC.push) :
    Inv n contribs red (pushStep (contribs i) c i) := by
  have hnotmem : i ∉ ord := fun hmem => (W.omem i).mp hmem hpc
  have hlen : ord.length < n := length_lt_of_not_mem W.onod hnotmem
  have hlenI : (ord.length : Int) < (n : Int) := by exact_mod_cast hlen
  have hpt : c.push_tasks ≠ 0 := by rw [W.hpush]; omega
  have hinotdep : i ∉ dep := fun hmem => by
    have hd := (W.dmem i).mp hmem
    rw [hpc] at hd
    simp [departed] at hd
  rw [pushStep_eq (contribs i) i hpt]
  refine ⟨ord ++ [i], dep, ?_⟩
  constructor <;> dsimp only
  case hg => exact W.hg
  case onod =>
    simp only [List.nodup_append, List.nodup_singleton, true_and]
    exact ⟨W.onod, by simpa [List.disjoint_singleton] using hnotmem⟩
  case dnod => exact W.dnod
  case omem =>
    intro j
    by_cases hj : j = i
    · subst hj
      simp [Function.update_same]
    · rw [Function.update_noteq hj]
      simp only [List.mem_append, List.mem_singleton, hj, or_false]
      exact W.omem j
  case dmem =>
    intro j
    by_cases hj : j = i
    · subst hj
      rw [Function.update_same]
      exact iff_of_false hinotdep (by simp [departed])
    · rw [Function.update_noteq hj]
      exact W.dmem j
  case hidx =>
    intro k hk
    rcases Nat.lt_or_ge k ord.length with hklt | hkge
    · rw [List.getElem_append_left hklt]
      have hgm : ord[k] ≠ i := fun he => hnotmem (he ▸ List.getElem_mem hklt)
      rw [Function.update_noteq hgm]
      exact W.hidx k hklt
    · have hkeq : k = ord.length := by
        simp only [List.length_append, List.length_singleton] at hk
        omega
      subst hkeq
      rw [List.getElem_concat_length ord i _ rfl]
      rw [Function.update_same]
      dsimp only
      rw [W.hg, W.hpush]
      push_cast
      ring
  case hpush =>
    simp only [List.length_append, List.length_singleton]
    rw [W.hpush]
    push_cast
    ring
  case hredc => exact W.hredc
  case hfull =>
    intro j hj
    by_cases hje : j = i
    · subst hje
      rw [Function.update_same] at hj
      simp [pastWait] at hj
    · rw [Function.update_noteq hje] at hj
      exact absurd (W.hfull j hj) (by omega)
  case hlist1 =>
    intro hdep
    rw [W.hlist1 hdep]
    simp
  case hlist2 =>
    intro hdep
    exfalso
    obtain ⟨j, hjmem⟩ := List.exists_mem_of_ne_nil dep hdep
    have := W.hfull j (departed_pastWait ((W.dmem j).mp hjmem))
    omega
  case hlen2p =>
    intro hdep
    exfalso
    obtain ⟨j, hjmem⟩ := List.exists_mem_of_ne_nil dep hdep
    have := W.hfull j (departed_pastWait ((W.dmem j).mp hjmem))
    omega
  case hinv =>
    intro j
    by_cases hj : j = i
    · subst hj
      rw [Function.update_same]
      exact W.hinv j
    · rw [Function.update_noteq hj]
      exact W.hinv j
  case hdall =>
    intro j hj
    by_cases hje : j = i
    · subst hje
      rw [Function.update_same] at hj
      rcases hj with hj | hj <;> simp at hj
    · rw [Function.update_noteq hje] at hj
      exact W.hdall j hj
  case hres =>
    intro j hj
    by_cases hje : j = i
    · subst hje
      rw [Function.update_same] at hj
      simp at hj
    · rw [Function.update_noteq hje] at hj
      have hpw : pastWait (c.threads j).pc := by
        rw [hj]
        exact ⟨by simp, by simp⟩
      exact absurd (W.hfull j hpw) (by omega)

theorem setPC_threads_pc_same {m : Nat} (c : Config m) (i : Fin m) (p : PC) :
    ((setPC c i p).threads i).pc = p := by
  simp [setPC]

theorem setPC_threads_ne {m : Nat} (c : Config m) (i : Fin m) (p : PC) {j : Fin m}
    (h : j ≠ i) : (setPC c i p).threads j = c.threads j := by
  simp [setPC, Function.update_noteq h]

theorem setPC_idx {m : Nat} (c : Config m) (i : Fin m) (p : PC) (j : Fin m) :
    ((setPC c i p).threads j).idx = (c.threads j).idx := by
  by_cases h : j = i
  · subst h; simp [setPC]
  · rw [setPC_threads_ne c i p h]

theorem setPC_invoked {m : Nat} (c : Config m) (i : Fin m) (p : PC) (j : Fin m) :
    ((setPC c i p).threads j).invoked = (c.threads j).invoked := by
  by_cases h : j = i
  · subst h; simp [setPC]
  · rw [setPC_threads_ne c i p h]

theorem setPC_res {m : Nat} (c : Config m) (i : Fin m) (p : PC) (j : Fin m) :
    ((setPC c i p).threads j).res = (c.threads j).res := by
  by_cases h : j = i
  · subst h; simp [setPC]
  · rw [setPC_threads_ne c i p h]

theorem passPush_preserve {n : Nat} {contribs : Fin n → List Int}
    {red : Nat → List Int → Option (List Int)} {c : Config n} {ord dep : List (Fin n)}
    (W : InvW n contribs red c ord dep) {i : Fin n}
    (hpc : (c.threads i).pc = PC.waitPush) (h0 : c.push_tasks = 0) :
    Inv n contribs red (setPC c i PC.reduce) := by
  have hflen : ord.length = n := by
    have h1 := W.hpush
    rw [h0] at h1
    omega
  have himem : i ∈ ord := (W.omem i).mpr (by rw [hpc]; simp)
  have hinotdep : i ∉ dep := fun hmem => by
    have hd := (W.dmem i).mp hmem
    rw [hpc] at hd
    simp [departed] at hd
  refine ⟨ord, dep, ?_⟩
  constructor
  case hg => exact W.hg
  case onod => exact W.onod
  case dnod => exact W.dnod
  case omem =>
    intro j
    by_cases hj : j = i
    · subst hj
      rw [setPC_threads_pc_same]
      exact iff_of_true himem (by simp)
    · rw [setPC_threads_ne c i _ hj]
      exact W.omem j
  case dmem =>
    intro j
    by_cases hj : j = i
    · subst hj
      rw [setPC_threads_pc_same]
      exact iff_of_false hinotdep (by simp [departed])
    · rw [setPC_threads_ne c i _ hj]
      exact W.dmem j
  case hidx =>
    intro k hk
    rw [setPC_idx]
    exact W.hidx k hk
  case hpush => exact W.hpush
  case hredc => exact W.hredc
  case hfull => intro j _; exact hflen
  case hlist1 => exact W.hlist1
  case hlist2 => exact W.hlist2
  case hlen2p => exact W.hlen2p
  case hinv =>
    intro j
    rw [setPC_invoked]
    exact W.hinv j
  case hdall =>
    intro j hj
    by_cases hje : j = i
    · subst hje
      rw [setPC_threads_pc_same] at hj
      rcases hj with hj | hj <;> cases hj
    · rw [setPC_threads_ne c i _ hje] at hj
      exact W.hdall j hj
  case hres =>
    intro j hj
    by_cases hje : j = i
    · subst hje
      rw [setPC_threads_pc_same] at hj
      cases hj
    · rw [setPC_threads_ne c i _ hje] at hj
      rw [setPC_threads_ne c i _ hje]
      exact W.hres j hj

theorem passReduce_preserve {n : Nat} {contribs : Fin n → List Int}
    {red : Nat → List Int → Option (List Int)} {c : Config n} {ord dep : List (Fin n)}
    (W : InvW n contribs red c ord dep) {i : Fin n}
    (hpc : (c.threads i).pc = PC.waitReduce) (h0 : c.reduce_tasks = 0) :
    Inv n contribs red (setPC c i PC.readOut) := by
  have hdlen : dep.length = n := by
    have h1 := W.hredc
    rw [h0] at h1
    omega
  have himem : i ∈ ord := (W.omem i).mpr (by rw [hpc]; simp)
  have hidep : i ∈ dep := (W.dmem i).mpr (by rw [hpc]; simp [departed])
  have hflen : ord.length = n := W.hfull i (by rw [hpc]; exact ⟨by simp, by simp⟩)
  refine ⟨ord, dep, ?_⟩
  constructor
  case hg => exact W.hg
  case onod => exact W.onod
  case dnod => exact W.dnod
  case omem =>
    intro j
    by_cases hj : j = i
    · subst hj
      rw [setPC_threads_pc_same]
      exact iff_of_true himem (by simp)
    · rw [setPC_threads_ne c i _ hj]
      exact W.omem j
  case dmem =>
    intro j
    by_cases hj : j = i
    · subst hj
      rw [setPC_threads_pc_same]
      exact iff_of_true hidep (by simp [departed])
    · rw [setPC_threads_ne c i _ hj]
      exact W.dmem j
  case hidx =>
    intro k hk
    rw [setPC_idx]
    exact W.hidx k hk
  case hpush => exact W.hpush
  case hredc => exact W.hredc
  case hfull => intro j _; exact hflen
  case hlist1 => exact W.hlist1
  case hlist2 => exact W.hlist2
  case hlen2p => exact W.hlen2p
  case hinv =>
    intro j
    rw [setPC_invoked]
    exact W.hinv j
  case hdall => intro j _; exact hdlen
  case hres =>
    intro j hj
    by_cases hje : j = i
    · subst hje
      rw [setPC_threads_pc_same] at hj
      cases hj
    · rw [setPC_threads_ne c i _ hje] at hj
      rw [setPC_threads_ne c i _ hje]
      exact W.hres j hj

theorem readStep_threads_same {m : Nat} (c : Config m) (i : Fin m) :
    (readStep c i).threads i =
      { c.threads i with
          pc := PC.done,
          res := some (pyGetItem c.list (2 * (c.threads i).idx),
                       pyGetItem c.list (2 * (c.threads i).idx + 1)) } := by
  simp [readStep]

theorem readStep_threads_ne {m : Nat} (c : Config m) (i : Fin m) {j : Fin m}
    (h : j ≠ i) : (readStep c i).threads j = c.threads j := by
  simp [readStep, Function.update_noteq h]

theorem read_preserve {n : Nat} {contribs : Fin n → List Int}
    {red : Nat → List Int → Option (List Int)} {c : Config n} {ord dep : List (Fin n)}
    (W : InvW n contribs red c ord dep) {i : Fin n}
    (hpc : (c.threads i).pc = PC.readOut) :
    Inv n contribs red (readStep c i) := by
  have hdlen : dep.length = n := W.hdall i (Or.inl hpc)
  have himem : i ∈ ord := (W.omem i).mpr (by rw [hpc]; simp)
  have hidep : i ∈ dep := (W.dmem i).mpr (by rw [hpc]; simp [departed])
  have hflen : ord.length = n := W.hfull i (by rw [hpc]; exact ⟨by simp, by simp⟩)
  refine ⟨ord, dep, ?_⟩
  constructor
  case hg => exact W.hg
  case onod => exact W.onod
  case dnod => exact W.dnod
  case omem =>
    intro j
    by_cases hj : j = i
    · subst hj
      rw [readStep_threads_same]
      exact iff_of_true himem (by simp)
    · rw [readStep_threads_ne c i hj]
      exact W.omem j
  case dmem =>
    intro j
    by_cases hj : j = i
    · subst hj
      rw [readStep_threads_same]
      exact iff_of_true hidep (by simp [departed])
    · rw [readStep_threads_ne c i hj]
      exact W.dmem j
  case hidx =>
    intro k hk
    by_cases hj : ord[k] = i
    · rw [hj, readStep_threads_same]
      dsimp only
      rw [← hj]
      exact W.hidx k hk
    · rw [readStep_threads_ne c i hj]
      exact W.hidx k hk
  case hpush => exact W.hpush
  case hredc => exact W.hredc
  case hfull => intro j _; exact hflen
  case hlist1 => exact W.hlist1
  case hlist2 => exact W.hlist2
  case hlen2p => exact W.hlen2p
  case hinv =>
    intro j
    by_cases hj : j = i
    · subst hj
      rw [readStep_threads_same]
      exact W.hinv j
    · rw [readStep_threads_ne c i hj]
      exact W.hinv j
  case hdall => intro j _; exact hdlen
  case hres =>
    intro j hj
    by_cases hje : j = i
    · subst hje
      simp [readStep]
    · rw [readStep_threads_ne c i hje] at hj
      rw [readStep_threads_ne c i hje]
      exact W.hres j hj

theorem reduceStep_eq_some {m : Nat} {c : Config m} {red : Nat → List Int → Option (List Int)}
    (i : Fin m) {ys : List Int} (htrig : c.reduce_tasks = (c.nGPUs : Int))
    (hlen2 : c.list.length = 2 * c.nGPUs) (hred : red 2 c.list = some ys) :
    reduceStep red c i =
      { c with
          list := ys,
          reduce_tasks := c.reduce_tasks - 1,
          threads := Function.update c.threads i
            { c.threads i with pc := PC.waitReduce, invoked := true } } := by
  simp [reduceStep, htrig, hlen2, hred]

theorem reduceStep_eq_none {m : Nat} {c : Config m} {red : Nat → List Int → Option (List Int)}
    (i : Fin m) (htrig : c.reduce_tasks = (c.nGPUs : Int))
    (hlen2 : c.list.length = 2 * c.nGPUs) (hred : red 2 c.list = none) :
    reduceStep red c i = setPC c i PC.reducerError := by
  simp [reduceStep, htrig, hlen2, hred]

theorem reduceStep_eq_abort {m : Nat} {c : Config m} {red : Nat → List Int → Option (List Int)}
    (i : Fin m) (htrig : c.reduce_tasks = (c.nGPUs : Int))
    (hlen2 : c.list.length ≠ 2 * c.nGPUs) :
    reduceStep red c i = setPC c i PC.assertAborted := by
  simp [reduceStep, htrig, hlen2]

theorem reduceStep_eq_decr {m : Nat} {c : Config m} {red : Nat → List Int → Option (List Int)}
    (i : Fin m) (htrig : c.reduce_tasks ≠ (c.nGPUs : Int)) :
    reduceStep red c i =
      { c with
          reduce_tasks := c.reduce_tasks - 1,
          threads := Function.update c.threads i
            { c.threads i with pc := PC.waitReduce } } := by
  simp [reduceStep, htrig]

theorem setPC_dead_preserve {n : Nat} {contribs : Fin n → List Int}
    {red : Nat → List Int → Option (List Int)} {c : Config n} {ord dep : List (Fin n)}
    (W : InvW n contribs red c ord dep) {i : Fin n}
    (hpc : (c.threads i).pc = PC.reduce) {p : PC}
    (hpp : p = PC.assertAborted ∨ p = PC.reducerError) :
    Inv n contribs red (setPC c i p) := by
  have hflen : ord.length = n := W.hfull i (by rw [hpc]; exact ⟨by simp, by simp⟩)
  have himem : i ∈ ord := (W.omem i).mpr (by rw [hpc]; simp)
  have hinotdep : i ∉ dep := fun hmem => by
    have hd := (W.dmem i).mp hmem
    rw [hpc] at hd
    simp [departed] at hd
  refine ⟨ord, dep, ?_⟩
  constructor
  case hg => exact W.hg
  case onod => exact W.onod
  case dnod => exact W.dnod
  case omem =>
    intro j
    by_cases hj : j = i
    · subst hj
      rw [setPC_threads_pc_same]
      refine iff_of_true himem ?_
      rcases hpp with h | h <;> subst h <;> simp
    · rw [setPC_threads_ne c i _ hj]
      exact W.omem j
  case dmem =>
    intro j
    by_cases hj : j = i
    · subst hj
      rw [setPC_threads_pc_same]
      refine iff_of_false hinotdep ?_
      rcases hpp with h | h <;> subst h <;> simp [departed]
    · rw [setPC_threads_ne c i _ hj]
      exact W.dmem j
  case hidx =>
    intro k hk
    rw [setPC_idx]
    exact W.hidx k hk
  case hpush => exact W.hpush
  case hredc => exact W.hredc
  case hfull => intro j _; exact hflen
  case hlist1 => exact W.hlist1
  case hlist2 => exact W.hlist2
  case hlen2p => exact W.hlen2p
  case hinv =>
    intro j
    rw [setPC_invoked]
    exact W.hinv j
  case hdall =>
    intro j hj
    by_cases hje : j = i
    · subst hje
      rw [setPC_threads_pc_same] at hj
      rcases hpp with h | h <;> subst h <;> rcases hj with hj | hj <;> cases hj
    · rw [setPC_threads_ne c i _ hje] at hj
      exact W.hdall j hj
  case hres =>
    intro j hj
    by_cases hje : j = i
    · subst hje
      rw [setPC_threads_pc_same] at hj
      rcases hpp with h | h <;> subst h <;> cases hj
    · rw [setPC_threads_ne c i _ hje] at hj
      rw [setPC_threads_ne c i _ hje]
      exact W.hres j hj

theorem reduce_preserve {n : Nat} {contribs : Fin n → List Int}
    {red : Nat → List Int → Option (List Int)} {c : Config n} {ord dep : List (Fin n)}
    (W : InvW n contribs red c ord dep) {i : Fin n}
    (hpc : (c.threads i).pc = PC.reduce) :
    Inv n contribs red (reduceStep red c i) := by
  have hflen : ord.length = n := W.hfull i (by rw [hpc]; exact ⟨by simp, by simp⟩)
  have himem : i ∈ ord := (W.omem i).mpr (by rw [hpc]; simp)
  have hinotdep : i ∉ dep := fun hmem => by
    have hd := (W.dmem i).mp hmem
    rw [hpc] at hd
    simp [departed] at hd
  have hnpos : 0 < n := i.pos
  by_cases htrig : c.reduce_tasks = (c.nGPUs : Int)
  · -- the triggering caller: dep is empty
    have hdep0 : dep = [] := by
      have h1 := W.hredc
      rw [htrig, W.hg] at h1
      have h2 : dep.length = 0 := by omega
      exact List.length_eq_zero.mp h2
    by_cases hlen2 : c.list.length = 2 * c.nGPUs
    · cases hred : red 2 c.list with
      | none =>
        rw [reduceStep_eq_none i htrig hlen2 hred]
        exact setPC_dead_preserve W hpc (Or.inr rfl)
      | some ys =>
        rw [reduceStep_eq_some i htrig hlen2 hred]
        refine ⟨ord, [i], ?_⟩
        constructor <;> dsimp only
        · -- hg
          exact W.hg
        · -- onod
          exact W.onod
        · -- dnod
          exact List.nodup_singleton i
        · -- omem
          intro j
          by_cases hj : j = i
          · subst hj
            rw [Function.update_same]
            exact iff_of_true himem (by simp)
          · rw [Function.update_noteq hj]
            exact W.omem j
        · -- dmem
          intro j
          by_cases hj : j = i
          · subst hj
            rw [Function.update_same]
            exact iff_of_true (by simp) (by simp [departed])
          · rw [Function.update_noteq hj]
            refine iff_of_false (by simp [hj]) ?_
            intro hd
            have := (W.dmem j).mpr hd
            rw [hdep0] at this
            simp at this
        · -- hidx
          intro k hk
          by_cases hj : ord[k] = i
          · rw [hj, Function.update_same]
            dsimp only
            rw [← hj]
            exact W.hidx k hk
          · rw [Function.update_noteq hj]
            exact W.hidx k hk
        · -- hpush
          exact W.hpush
        · -- hredc
          simp only [List.length_singleton]
          rw [htrig, W.hg]
          norm_num
        · -- hfull
          intro j _; exact hflen
        · -- hlist1
          intro h
          simp at h
        · -- hlist2
          intro _
          rw [← W.hlist1 hdep0]
          exact hred
        · -- hlen2p
          intro _
          rw [← W.hlist1 hdep0, hlen2, W.hg]
        · -- hinv
          intro j
          by_cases hj : j = i
          · subst hj
            rw [Function.update_same]
            simp
          · rw [Function.update_noteq hj]
            refine iff_of_false ?_ (by simp [Ne.symm hj])
            intro h
            have := (W.hinv j).mp h
            rw [hdep0] at this
            simp at this
        · -- hdall
          intro j hj
          by_cases hje : j = i
          · subst hje
            rw [Function.update_same] at hj
            rcases hj with hj | hj <;> cases hj
          · rw [Function.update_noteq hje] at hj
            exfalso
            have h1 := W.hdall j hj
            rw [hdep0] at h1
            simp at h1
            omega
        · -- hres
          intro j hj
          by_cases hje : j = i
          · subst hje
            rw [Function.update_same] at hj
            cases hj
          · rw [Function.update_noteq hje] at hj
            exfalso
            have h1 := W.hdall j (Or.inr hj)
            rw [hdep0] at h1
            simp at h1
            omega
    · rw [reduceStep_eq_abort i htrig hlen2]
      exact setPC_dead_preserve W hpc (Or.inl rfl)
  · -- a non-triggering caller: dep is nonempty and only the counter moves
    have hdepne : dep ≠ [] := by
      intro h
      apply htrig
      rw [W.hredc, h, W.hg]
      simp
    obtain ⟨d0, dtl, rfl⟩ := List.exists_cons_of_ne_nil hdepne
    have hd0mem : d0 ∈ d0 :: dtl := List.mem_cons_self d0 dtl
    have hd0ne : d0 ≠ i := fun h => hinotdep (h ▸ hd0mem)
    rw [reduceStep_eq_decr i htrig]
    refine ⟨ord, (d0 :: dtl) ++ [i], ?_⟩
    constructor <;> dsimp only
    · -- hg
      exact W.hg
    · -- onod
      exact W.onod
    · -- dnod
      simp only [List.nodup_append, List.nodup_singleton, true_and]
      exact ⟨W.dnod, by simpa [List.disjoint_singleton] using hinotdep⟩
    · -- omem
      intro j
      by_cases hj : j = i
      · subst hj
        rw [Function.update_same]
        exact iff_of_true himem (by simp)
      · rw [Function.update_noteq hj]
        exact W.omem j
    · -- dmem
      intro j
      by_cases hj : j = i
      · subst hj
        rw [Function.update_same]
        exact iff_of_true (by simp) (by simp [departed])
      · rw [Function.update_noteq hj]
        rw [← W.dmem j]
        simp [hj]
    · -- hidx
      intro k hk
      by_cases hj : ord[k] = i
      · rw [hj, Function.update_same]
        dsimp only
        rw [← hj]
        exact W.hidx k hk
      · rw [Function.update_noteq hj]
        exact W.hidx k hk
    · -- hpush
      exact W.hpush
    · -- hredc
      rw [W.hredc]
      simp only [List.length_append, List.length_cons, List.length_singleton,
        List.length_nil]
      push_cast
      ring
    · -- hfull
      intro j _; exact hflen
    · -- hlist1
      intro h
      simp at h
    · -- hlist2
      intro _
      exact W.hlist2 hdepne
    · -- hlen2p
      intro _
      exact W.hlen2p hdepne
    · -- hinv
      intro j
      have hh : ((d0 :: dtl) ++ [i]).head? = some d0 := by simp
      rw [hh]
      by_cases hj : j = i
      · subst hj
        rw [Function.update_same]
        dsimp only
        refine iff_of_false ?_ (by simp [hd0ne])
        intro h
        have := (W.hinv j).mp h
        simp at this
        exact hd0ne this
      · rw [Function.update_noteq hj]
        rw [W.hinv j]
        simp
    · -- hdall
      intro j hj
      by_cases hje : j = i
      · subst hje
        rw [Function.update_same] at hj
        rcases hj with hj | hj <;> cases hj
      · rw [Function.update_noteq hje] at hj
        exfalso
        have h1 := W.hdall j hj
        exact hinotdep (mem_of_nodup_length_eq W.dnod h1 i)
    · -- hres
      intro j hj
      by_cases hje : j = i
      · subst hje
        rw [Function.update_same] at hj
        cases hj
      · rw [Function.update_noteq hje] at hj
        rw [Function.update_noteq hje]
        exact W.hres j hj

theorem inv_step {n : Nat} {contribs : Fin n → List Int}
    {red : Nat → List Int → Option (List Int)} {c c1 : Config n}
    (hInv : Inv n contribs red c) (hs : Step contribs red c c1) :
    Inv n contribs red c1 := by
  obtain ⟨ord, dep, W⟩ := hInv
  cases hs with
  | pushS i h => exact push_preserve W h
  | passPush i h h0 => exact passPush_preserve W h h0
  | reduceS i h => exact reduce_preserve W h
  | passReduce i h h0 => exact passReduce_preserve W h h0
  | readS i h => exact read_preserve W h

theorem inv_reachable {n : Nat} {contribs : Fin n → List Int}
    {red : Nat → List Int → Option (List Int)} {c : Config n}
    (h : Relation.ReflTransGen (Step contribs red) (initConfig n) c) :
    Inv n contribs red c := by
  induction h with
  | refl => exact inv_init n contribs red
  | tail h1 h2 ih => exact inv_step ih h2

/-- The elementwise combination of all workers' contributions at
position `j` inside each contribution. -/
def roundSum {n : Nat} (contribs : Fin n → List Int) (j : Nat) : Int :=
  ∑ k, (contribs k).getD j 0

theorem final_res_eq {n : Nat} {contribs : Fin n → List Int} {c : Config n}
    (hn : 0 < n) (h2 : ∀ i, (contribs i).length = 2)
    (hre : Relation.ReflTransGen (Step contribs normalRed) (initConfig n) c)
    (hdone : ∀ i, (c.threads i).pc = PC.done) :
    ∀ i, (c.threads i).res = some (some (roundSum contribs 0), some (roundSum contribs 1)) := by
  obtain ⟨ord, dep, W⟩ := inv_reachable hre
  have i0 : Fin n := ⟨0, hn⟩
  have hdlen : dep.length = n := W.hdall i0 (Or.inr (hdone i0))
  have hdepne : dep ≠ [] := by
    intro h
    rw [h] at hdlen
    simp at hdlen
    omega
  have hflen : ord.length = n := W.hfull i0 (by rw [hdone i0]; exact ⟨by simp, by simp⟩)
  have hall : ∀ j, j ∈ ord := mem_of_nodup_length_eq W.onod hflen
  have hlst : c.list = allreduce 2 ((ord.map contribs).flatten) := by
    have h1 := W.hlist2 hdepne
    simp only [normalRed, Option.some.injEq] at h1
    exact h1.symm
  have hJlen : ((ord.map contribs).flatten).length = n * 2 := by
    rw [flatten_map_length contribs 2 h2 ord, hflen]
  have hcol : ∀ j, j < 2 →
      colSum 2 ((ord.map contribs).flatten) j = roundSum contribs j := by
    intro j hj
    rw [colSum_flatten contribs 2 h2 ord j hj (by norm_num)]
    exact sum_map_eq_sum_univ ord W.onod hall _
  intro i
  rw [W.hres i (hdone i)]
  obtain ⟨k, hk, hki⟩ := List.mem_iff_getElem.mp (hall i)
  have hidx : (c.threads i).idx = (k : Int) := by
    rw [← hki]
    exact W.hidx k hk
  have hkn : k < n := by rw [← hflen]; exact hk
  have hc0 : (2 * (k : Int)) = ((2 * k : Nat) : Int) := by push_cast; ring
  have hc1 : (2 * (k : Int) + 1) = ((2 * k + 1 : Nat) : Int) := by push_cast; ring
  rw [hidx, hc1, hc0, pyGetItem_natCast, pyGetItem_natCast, hlst]
  rw [allreduce_getElem? 2 _ (2 * k) (by omega), allreduce_getElem? 2 _ (2 * k + 1) (by omega)]
  have hm0 : (2 * k) % 2 = 0 := by omega
  have hm1 : (2 * k + 1) % 2 = 1 := by omega
  rw [hm0, hm1, hcol 0 (by norm_num), hcol 1 (by norm_num)]

theorem pushStep_threads_eq {m : Nat} (contrib : List Int) (c : Config m) (i : Fin m) :
    (pushStep contrib c i).threads =
      Function.update c.threads i
        { c.threads i with
            pc := PC.waitPush,
            idx := (c.nGPUs : Int) -
              (if c.push_tasks = 0 then (c.nGPUs : Int) else c.push_tasks) } := by
  by_cases h : c.push_tasks = 0 <;> simp [pushStep, clearShared, h]

theorem pushStep_pc_self {m : Nat} (contrib : List Int) (c : Config m) (i : Fin m) :
    ((pushStep contrib c i).threads i).pc = PC.waitPush := by
  rw [pushStep_threads_eq, Function.update_same]

theorem pushStep_threads_ne {m : Nat} (contrib : List Int) (c : Config m) (i : Fin m)
    {j : Fin m} (h : j ≠ i) : (pushStep contrib c i).threads j = c.threads j := by
  rw [pushStep_threads_eq, Function.update_noteq h]

theorem reduceStep_threads_ne {m : Nat} (red : Nat → List Int → Option (List Int))
    (c : Config m) (i : Fin m) {j : Fin m} (h : j ≠ i) :
    (reduceStep red c i).threads j = c.threads j := by
  unfold reduceStep
  by_cases h1 : c.reduce_tasks = (c.nGPUs : Int)
  · by_cases hl : c.list.length = 2 * c.nGPUs
    · cases hr : red 2 c.list
      · simp [h1, hl, hr, setPC, Function.update_noteq h]
      · simp [h1, hl, hr, Function.update_noteq h]
    · simp [h1, hl, setPC, Function.update_noteq h]
  · simp [h1, Function.update_noteq h]

/-- At the moment the reduction is triggered (a caller at the reduce
section sees `reduce_tasks == nGPUs`), the buffer holds exactly
`2 * nGPUs` entries, provided every caller contributed exactly 2
values. -/
theorem trigger_length {n : Nat} {contribs : Fin n → List Int}
    {red : Nat → List Int → Option (List Int)} {c : Config n} {ord dep : List (Fin n)}
    (W : InvW n contribs red c ord dep) (h2 : ∀ i, (contribs i).length = 2) {i : Fin n}
    (hpc : (c.threads i).pc = PC.reduce) (htrig : c.reduce_tasks = (c.nGPUs : Int)) :
    c.list.length = 2 * c.nGPUs := by
  have hflen : ord.length = n := W.hfull i (by rw [hpc]; exact ⟨by simp, by simp⟩)
  have hdep0 : dep = [] := by
    have h1 := W.hredc
    rw [htrig, W.hg] at h1
    have hd0 : dep.length = 0 := by omega
    exact List.length_eq_zero.mp hd0
  rw [W.hlist1 hdep0, flatten_map_length contribs 2 h2, hflen, W.hg]
  ring

/-- With arity-2 contributions, a run of the barrier under the real
Reducer never trips the length assertion at line 154. -/
theorem no_assert_reachable {n : Nat} {contribs : Fin n → List Int} {c : Config n}
    (h2 : ∀ i, (contribs i).length = 2)
    (hre : Relation.ReflTransGen (Step contribs normalRed) (initConfig n) c) :
    ∀ i, (c.threads i).pc ≠ PC.assertAborted := by
  have hmain : Inv n contribs normalRed c ∧
      (∀ i, (c.threads i).pc ≠ PC.assertAborted) := by
    induction hre with
    | refl =>
      refine ⟨inv_init n contribs normalRed, ?_⟩
      intro i h
      simp [initConfig, initTS] at h
    | @tail b c1 h1 hs ih =>
      refine ⟨inv_step ih.1 hs, ?_⟩
      obtain ⟨ord, dep, W⟩ := ih.1
      cases hs with
      | pushS i h =>
        intro j hj
        by_cases hje : j = i
        · subst hje
          rw [pushStep_pc_self] at hj
          cases hj
        · rw [pushStep_threads_ne _ _ _ hje] at hj
          exact ih.2 j hj
      | passPush i h h0 =>
        intro j hj
        by_cases hje : j = i
        · subst hje
          rw [setPC_threads_pc_same] at hj
          cases hj
        · rw [setPC_threads_ne _ _ _ hje] at hj
          exact ih.2 j hj
      | reduceS i h =>
        intro j hj
        by_cases hje : j = i
        · subst hje
          by_cases htrig : b.reduce_tasks = (b.nGPUs : Int)
          · have hlen2 := trigger_length W h2 h htrig
            rw [reduceStep_eq_some j htrig hlen2 rfl] at hj
            simp [Function.update_same] at hj
          · rw [reduceStep_eq_decr j htrig] at hj
            simp [Function.update_same] at hj
        · rw [reduceStep_threads_ne _ _ _ hje] at hj
          exact ih.2 j hj
      | passReduce i h h0 =>
        intro j hj
        by_cases hje : j = i
        · subst hje
          rw [setPC_threads_pc_same] at hj
          cases hj
        · rw [setPC_threads_ne _ _ _ hje] at hj
          exact ih.2 j hj
      | readS i h =>
        intro j hj
        by_cases hje : j = i
        · subst hje
          rw [readStep_threads_same] at hj
          cases hj
        · rw [readStep_threads_ne _ _ hje] at hj
          exact ih.2 j hj
  exact hmain.2

/-- Every call is still in the push phase, at the reduce section, or
already killed by the Reducer failure: the states that would follow a
successful reduction never occur. -/
def allAlive {n : Nat} (c : Config n) : Prop :=
  ∀ i, (c.threads i).pc = PC.push ∨ (c.threads i).pc = PC.waitPush ∨
    (c.threads i).pc = PC.reduce ∨ (c.threads i).pc = PC.reducerError

theorem fail_reachable_alive {n : Nat} {contribs : Fin n → List Int} {c : Config n}
    (h2 : ∀ i, (contribs i).length = 2)
    (hre : Relation.ReflTransGen (Step contribs failRed) (initConfig n) c) :
    Inv n contribs failRed c ∧ allAlive c := by
  induction hre with
  | refl =>
    exact ⟨inv_init n contribs failRed, fun i => Or.inl (by simp [initConfig, initTS])⟩
  | @tail b c1 h1 hs ih =>
    refine ⟨inv_step ih.1 hs, ?_⟩
    obtain ⟨ord, dep, W⟩ := ih.1
    have hdep0 : dep = [] := by
      rw [List.eq_nil_iff_forall_not_mem]
      intro j hjmem
      have hd := (W.dmem j).mp hjmem
      rcases ih.2 j with h | h | h | h <;> rw [h] at hd <;> simp [departed] at hd
    cases hs with
    | pushS i h =>
      intro j
      by_cases hje : j = i
      · subst hje
        rw [pushStep_pc_self]
        simp
      · rw [pushStep_threads_ne _ _ _ hje]
        exact ih.2 j
    | passPush i h h0 =>
      intro j
      by_cases hje : j = i
      · subst hje
        rw [setPC_threads_pc_same]
        simp
      · rw [setPC_threads_ne _ _ _ hje]
        exact ih.2 j
    | reduceS i h =>
      have htrig : b.reduce_tasks = (b.nGPUs : Int) := by
        rw [W.hredc, hdep0, W.hg]
        simp
      have hlen2 := trigger_length W h2 h htrig
      rw [reduceStep_eq_none i htrig hlen2 rfl]
      intro j
      by_cases hje : j = i
      · subst hje
        rw [setPC_threads_pc_same]
        simp
      · rw [setPC_threads_ne _ _ _ hje]
        exact ih.2 j
    | passReduce i h h0 =>
      exfalso
      rcases ih.2 i with hh | hh | hh | hh <;> rw [h] at hh <;> cases hh
    | readS i h =>
      exfalso
      rcases ih.2 i with hh | hh | hh | hh <;> rw [h] at hh <;> cases hh

theorem fail_stuck_all_error {n : Nat} {contribs : Fin n → List Int} {c : Config n}
    (h2 : ∀ i, (contribs i).length = 2)
    (hre : Relation.ReflTransGen (Step contribs failRed) (initConfig n) c)
    (hstuck : ∀ c1, ¬ Step contribs failRed c c1) :
    ∀ i, (c.threads i).pc = PC.reducerError := by
  obtain ⟨hInv, halive⟩ := fail_reachable_alive h2 hre
  obtain ⟨ord, dep, W⟩ := hInv
  have hnopush : ∀ i, (c.threads i).pc ≠ PC.push :=
    fun i hp => hstuck _ (Step.pushS c i hp)
  have hall : ∀ i, i ∈ ord := fun i => (W.omem i).mpr (hnopush i)
  have hflen : ord.length = n := by
    refine le_antisymm (by simpa using List.Nodup.length_le_card W.onod) ?_
    have hsub : Finset.univ ⊆ ord.toFinset :=
      fun x _ => List.mem_toFinset.mpr (hall x)
    have hcard := Finset.card_le_card hsub
    simpa [List.toFinset_card_of_nodup W.onod] using hcard
  have hpt0 : c.push_tasks = 0 := by
    rw [W.hpush, hflen]
    ring
  have hnowait : ∀ i, (c.threads i).pc ≠ PC.waitPush :=
    fun i hp => hstuck _ (Step.passPush c i hp hpt0)
  have hnoreduce : ∀ i, (c.threads i).pc ≠ PC.reduce :=
    fun i hp => hstuck _ (Step.reduceS c i hp)
  intro i
  rcases halive i with h | h | h | h
  · exact absurd h (hnopush i)
  · exact absurd h (hnowait i)
  · exact absurd h (hnoreduce i)
  · exact h

/-! ### Concrete rounds used as witnesses -/

/-- The spec scenario: worker A contributes [10, 4], worker B
contributes [20, 16]. -/
def contribs2 : Fin 2 → List Int := fun i => if i = 0 then [10, 4] else [20, 16]

/-- A fully sequentialized interleaving of two calls. -/
def sched2 : List (Fin 2) := [0, 1, 0, 1, 0, 1, 0, 1, 0, 1]

def final2 : Config 2 := runSched contribs2 normalRed (initConfig 2) sched2

def contribs1 : Fin 1 → List Int := fun _ => [5, 7]

/-- A finished dirty round (round 2 over stale buffer contents). -/
def finalDirty1 : Config 1 :=
  runSched contribs1 normalRed (dirtyInit 1 [99, 98] 0) [0, 0, 0, 0, 0]

/-- One caller of a failing-Reducer round, run to completion. -/
def finalFail1 : Config 1 := runSched contribs1 failRed (initConfig 1) [0, 0, 0]

/-- Round with a correctly filled buffer, about to reduce. -/
def dGood : Config 2 :=
  { nGPUs := 2, list := [1, 2, 3, 4], push_tasks := 0, reduce_tasks := 2,
    threads := fun _ => { pc := PC.reduce, idx := 1, res := none, invoked := false } }

/-- Round with a malformed buffer (3 entries instead of 2 * nGPUs = 2),
about to reduce. -/
def dBad : Config 1 :=
  { nGPUs := 1, list := [3, 4, 5], push_tasks := 0, reduce_tasks := 1,
    threads := fun _ => { pc := PC.reduce, idx := 0, res := none, invoked := false } }

/-- Two round-1 calls (instances 0 and 1) on a SharedTensor with
nGPUs = 2, plus instance 2 modelling the second call of the worker
behind instance 0, made after instance 0 returned. -/
def contribs7 : Fin 3 → List Int :=
  fun i => if i = 0 then [10, 4] else if i = 1 then [20, 16] else [7, 7]

def init7 : Config 3 :=
  { nGPUs := 2, list := [], push_tasks := 2, reduce_tasks := 2,
    threads := fun _ => initTS }

/-- Schedule: round 1 runs to the point where call 0 has returned but
call 1 has not yet executed its unlocked read of line 165; the worker
behind call 0 then starts round 2 (instance 2, scheduled only after
instance 0 is done); finally call 1 performs its read. -/
def sched7 : List (Fin 3) := [0, 1, 0, 1, 0, 1, 0, 1, 0, 2, 1]

def bad7 : Config 3 := runSched contribs7 normalRed init7 sched7

/-! ### Claims -/

/-- C9: for every `num_features` and every `eps` and `momentum`
argument supplied at construction, the constructed synchronized
batch-norm module stores `eps = 1e-5` and `momentum = 0.1`
(line 28 hardcodes the literals); the caller-supplied values are
discarded and never affect the module state. -/
theorem c9_eps_momentum_hardcoded :
    ∀ (nf : Nat) (e mo : ℚ) (d : Nat),
      (syncBatchNormInit nf e mo d).eps = 1 / 100000 ∧
      (syncBatchNormInit nf e mo d).momentum = 1 / 10 ∧
      syncBatchNormInit nf e mo d = syncBatchNormInit nf (1 / 100000) (1 / 10) d := by
  intro nf e mo d
  exact ⟨rfl, rfl, rfl⟩

/-- C10: the barrier fixes the arity at 2: a triggering caller always
invokes the Reducer with arity argument 2 and replaces the buffer with
its output, every read returns exactly the pair of entries at positions
2*token and 2*token+1, and a triggering caller over a buffer whose
length is not 2 * worker_count dies on the length assertion. -/
theorem c10_arity_fixed_at_two :
    (∀ (m : Nat) (d : Config m) (i : Fin m),
       d.reduce_tasks = (d.nGPUs : Int) → d.list.length = 2 * d.nGPUs →
       (reduceStep normalRed d i).list = allreduce 2 d.list) ∧
    (∀ (m : Nat) (d : Config m) (i : Fin m),
       ((readStep d i).threads i).res =
         some (pyGetItem d.list (2 * (d.threads i).idx),
               pyGetItem d.list (2 * (d.threads i).idx + 1))) ∧
    (∀ (m : Nat) (d : Config m) (i : Fin m) (red : Nat → List Int → Option (List Int)),
       d.reduce_tasks = (d.nGPUs : Int) → d.list.length ≠ 2 * d.nGPUs →
       ((reduceStep red d i).threads i).pc = PC.assertAborted) := by
  refine ⟨?_, ?_, ?_⟩
  · intro m d i h1 h2
    rw [reduceStep_eq_some i h1 h2 rfl]
  · intro m d i
    rw [readStep_threads_same]
  · intro m d i red h1 h2
    rw [reduceStep_eq_abort i h1 h2, setPC_threads_pc_same]

theorem c10_witness :
    (reduceStep normalRed dGood 0).list = allreduce 2 dGood.list ∧
    allreduce 2 dGood.list = [4, 6, 4, 6] ∧
    ((readStep dGood 0).threads 0).res =
      some (pyGetItem dGood.list (2 * (dGood.threads 0).idx),
            pyGetItem dGood.list (2 * (dGood.threads 0).idx + 1)) ∧
    ((reduceStep normalRed dBad 0).threads 0).pc = PC.assertAborted := by
  refine ⟨c10_arity_fixed_at_two.1 2 dGood 0 (by decide) (by decide), by decide,
    c10_arity_fixed_at_two.2.1 2 dGood 0,
    c10_arity_fixed_at_two.2.2 1 dBad 0 normalRed (by decide) (by decide)⟩

/-- C7 (refuted, code bug): the claim states that no round-N+1 submit
proceeds (in particular none clears or appends to the shared buffer)
until every round-N collect call has completed reading its slice.  In
the code the read of line 165 runs outside the lock, so a worker that
has already returned can start its next-round call, whose push section
(lines 140-145) observes `push_tasks == 0`, clears the buffer and
appends new data while a round-N straggler still has not read.  In the
trace below (nGPUs = 2), call 2 is the second-round call of the worker
behind call 0; after it pushes, call 1 finally executes line 165 on the
clobbered 2-element buffer and `self.list[2]` / `self.list[3]` raise
IndexError (modelled as `none`), instead of returning the round-1
result [30, 20] that call 0 received. -/
theorem c7_round_boundary_race :
    Relation.ReflTransGen (Step contribs7 normalRed) init7 bad7 ∧
    (bad7.threads 2).pc ≠ PC.push ∧
    bad7.list = [7, 7] ∧
    (bad7.threads 1).pc = PC.done ∧
    (bad7.threads 1).res = some (none, none) ∧
    (bad7.threads 0).res = some (some 30, some 20) := by
  refine ⟨runSched_reachable contribs7 normalRed sched7 init7, ?_, ?_, ?_, ?_, ?_⟩
  · decide
  · decide
  · decide
  · decide
  · decide

/-- C1: in a round with exactly `worker_count` participating callers,
the Reducer is invoked exactly once, by the single caller that observes
`reduce_tasks` still equal to `worker_count` (every other caller only
decrements); this holds for every worker count N >= 1 and every
arrival interleaving: in every reachable configuration at most one
caller has performed the invocation, and once all callers have
returned, exactly one has. -/
theorem c1_reducer_invoked_exactly_once :
    ∀ (n : Nat), 0 < n → ∀ (contribs : Fin n → List Int) (c : Config n),
      Relation.ReflTransGen (Step contribs normalRed) (initConfig n) c →
      (Finset.univ.filter fun i => (c.threads i).invoked = true).card ≤ 1 ∧
      ((∀ i, (c.threads i).pc = PC.done) →
        (Finset.univ.filter fun i => (c.threads i).invoked = true).card = 1) := by
  intro n hn contribs c hre
  obtain ⟨ord, dep, W⟩ := inv_reachable hre
  cases hdc : dep with
  | nil =>
    have hno : ∀ i, ¬((c.threads i).invoked = true) := by
      intro i h
      have h2 := (W.hinv i).mp h
      rw [hdc] at h2
      cases h2
    have hfe : (Finset.univ.filter fun i => (c.threads i).invoked = true) = ∅ :=
      Finset.filter_eq_empty_iff.mpr (by intro i _; exact hno i)
    refine ⟨by rw [hfe]; simp, ?_⟩
    intro hdone
    exfalso
    have hd := W.hdall ⟨0, hn⟩ (Or.inr (hdone ⟨0, hn⟩))
    rw [hdc] at hd
    simp at hd
    omega
  | cons d0 dt =>
    have hfe : (Finset.univ.filter fun i => (c.threads i).invoked = true) = {d0} := by
      ext j
      simp only [Finset.mem_filter, Finset.mem_univ, true_and, Finset.mem_singleton]
      rw [W.hinv j, hdc]
      simp [eq_comm]
    rw [hfe]
    simp

theorem c1_witness :
    (Finset.univ.filter fun i => (final2.threads i).invoked = true).card = 1 :=
  (c1_reducer_invoked_exactly_once 2 (by norm_num) contribs2 final2
    (runSched_reachable contribs2 normalRed sched2 (initConfig 2))).2 (by decide)

/-- C2: for every worker count N >= 1 and arity a >= 1, in any
interleaving in which exactly N callers each submit an a-length
contribution and all have collected, the round necessarily had a = 2
(no round of any other arity can pass the reduction assertion and
complete), and every caller collects the pair of elementwise sums of
all N contributions at corresponding positions. -/
theorem c2_collect_equals_combination :
    ∀ (n : Nat), 0 < n → ∀ (a : Nat) (contribs : Fin n → List Int),
      (∀ i, (contribs i).length = a) → ∀ (c : Config n),
      Relation.ReflTransGen (Step contribs normalRed) (initConfig n) c →
      (∀ i, (c.threads i).pc = PC.done) →
      a = 2 ∧
      ∀ i, (c.threads i).res =
        some (some (roundSum contribs 0), some (roundSum contribs 1)) := by
  intro n hn a contribs ha c hre hdone
  obtain ⟨ord, dep, W⟩ := inv_reachable hre
  have i0 : Fin n := ⟨0, hn⟩
  have hdlen : dep.length = n := W.hdall i0 (Or.inr (hdone i0))
  have hdepne : dep ≠ [] := by
    intro h
    rw [h] at hdlen
    simp at hdlen
    omega
  have hflen : ord.length = n := W.hfull i0 (by rw [hdone i0]; exact ⟨by simp, by simp⟩)
  have hlp := W.hlen2p hdepne
  rw [flatten_map_length contribs a ha, hflen, Nat.mul_comm 2 n] at hlp
  have ha2 : a = 2 := Nat.eq_of_mul_eq_mul_left hn hlp
  subst ha2
  exact ⟨rfl, final_res_eq hn ha hre hdone⟩

theorem c2_witness :
    (final2.threads 0).res = some (some 30, some 20) ∧
    (final2.threads 1).res = some (some 30, some 20) := by
  have h := c2_collect_equals_combination 2 (by norm_num) 2 contribs2 (by decide) final2
    (runSched_reachable contribs2 normalRed sched2 (initConfig 2)) (by decide)
  constructor
  · rw [h.2 0]
    decide
  · rw [h.2 1]
    decide

/-- C3: in every reachable configuration of a round there is an arrival
order such that the k-th arrival holds slot token k (computed as
`worker_count - push_tasks` before the decrement); the issued tokens
are pairwise distinct and lie in [0, number of arrivals); and before
the reduction is triggered the contribution of the caller holding token
k occupies buffer positions [k*a, k*a + a) when every contribution has
length a. -/
theorem c3_slot_tokens :
    ∀ (n : Nat) (contribs : Fin n → List Int) (c : Config n),
      Relation.ReflTransGen (Step contribs normalRed) (initConfig n) c →
      ∃ ord : List (Fin n),
        ord.Nodup ∧
        (∀ i, i ∈ ord ↔ (c.threads i).pc ≠ PC.push) ∧
        c.push_tasks = (n : Int) - ord.length ∧
        (∀ (k : Nat) (hk : k < ord.length), (c.threads ord[k]).idx = (k : Int)) ∧
        (∀ i, i ∈ ord →
          0 ≤ (c.threads i).idx ∧ (c.threads i).idx < (ord.length : Int)) ∧
        (∀ i j, i ∈ ord → j ∈ ord →
          (c.threads i).idx = (c.threads j).idx → i = j) ∧
        (∀ (a : Nat), (∀ i, (contribs i).length = a) → c.reduce_tasks = (n : Int) →
          ∀ i, i ∈ ord → ∀ jj, jj < a →
            c.list[(c.threads i).idx.toNat * a + jj]? = (contribs i)[jj]?) := by
  intro n contribs c hre
  obtain ⟨ord, dep, W⟩ := inv_reachable hre
  refine ⟨ord, W.onod, W.omem, W.hpush, W.hidx, ?_, ?_, ?_⟩
  · intro i hi
    obtain ⟨k, hk, hki⟩ := List.mem_iff_getElem.mp hi
    have hx : (c.threads i).idx = (k : Int) := by
      rw [← hki]
      exact W.hidx k hk
    rw [hx]
    exact ⟨Int.natCast_nonneg k, by exact_mod_cast hk⟩
  · intro i j hi hj he
    obtain ⟨k, hk, hki⟩ := List.mem_iff_getElem.mp hi
    obtain ⟨k2, hk2, hk2i⟩ := List.mem_iff_getElem.mp hj
    have hx : (c.threads i).idx = (k : Int) := by rw [← hki]; exact W.hidx k hk
    have hx2 : (c.threads j).idx = (k2 : Int) := by rw [← hk2i]; exact W.hidx k2 hk2
    rw [hx, hx2] at he
    have hkk : k = k2 := by exact_mod_cast he
    subst hkk
    rw [← hki, ← hk2i]
  · intro a ha hrt i hi jj hjj
    have hdep0 : dep = [] := by
      have h1 := W.hredc
      rw [hrt] at h1
      have h2 : dep.length = 0 := by omega
      exact List.length_eq_zero.mp h2
    obtain ⟨k, hk, hki⟩ := List.mem_iff_getElem.mp hi
    have hx : (c.threads i).idx = (k : Int) := by rw [← hki]; exact W.hidx k hk
    rw [hx, Int.toNat_natCast, W.hlist1 hdep0,
      flatten_map_getElem? contribs a ha ord k jj hk hjj, hki]

theorem c3_witness :
    ∃ ord : List (Fin 2),
      ord.Nodup ∧
      (∀ i, i ∈ ord ↔ (final2.threads i).pc ≠ PC.push) ∧
      final2.push_tasks = (2 : Int) - ord.length ∧
      (∀ (k : Nat) (hk : k < ord.length), (final2.threads ord[k]).idx = (k : Int)) ∧
      (∀ i, i ∈ ord →
        0 ≤ (final2.threads i).idx ∧ (final2.threads i).idx < (ord.length : Int)) ∧
      (∀ i j, i ∈ ord → j ∈ ord →
        (final2.threads i).idx = (final2.threads j).idx → i = j) ∧
      (∀ (a : Nat), (∀ i, (contribs2 i).length = a) → final2.reduce_tasks = (2 : Int) →
        ∀ i, i ∈ ord → ∀ jj, jj < a →
          final2.list[(final2.threads i).idx.toNat * a + jj]? = (contribs2 i)[jj]?) :=
  c3_slot_tokens 2 contribs2 final2
    (runSched_reachable contribs2 normalRed sched2 (initConfig 2))

theorem dirty_push_eq_fresh {n : Nat} (hn : 0 < n) (contribs : Fin n → List Int)
    (oldList : List Int) (r : Int) (i : Fin n) :
    pushStep (contribs i) (dirtyInit n oldList r) i =
      pushStep (contribs i) (initConfig n) i := by
  have hnz : ¬((n : Int) = 0) := by omega
  simp [pushStep, dirtyInit, initConfig, clearShared, hnz]

/-- C4: after a full round has drained (`push_tasks` at 0), the first
submit of the next round finds the arrivals counter at zero, clears the
buffer and restores both counters to `worker_count` before appending
its own contribution, so the next round behaves exactly like a round on
a fresh barrier: its final results carry no value from the stale
buffer. -/
theorem c4_round_reset :
    ∀ (n : Nat), 0 < n → ∀ (contribs : Fin n → List Int),
      (∀ i, (contribs i).length = 2) → ∀ (oldList : List Int) (r : Int),
      (∀ i : Fin n,
         (pushStep (contribs i) (dirtyInit n oldList r) i).list = contribs i ∧
         (pushStep (contribs i) (dirtyInit n oldList r) i).push_tasks = (n : Int) - 1 ∧
         (pushStep (contribs i) (dirtyInit n oldList r) i).reduce_tasks = (n : Int) ∧
         pushStep (contribs i) (dirtyInit n oldList r) i =
           pushStep (contribs i) (initConfig n) i) ∧
      (∀ c, Relation.ReflTransGen (Step contribs normalRed) (dirtyInit n oldList r) c →
         (∀ i, (c.threads i).pc = PC.done) →
         ∀ i, (c.threads i).res =
           some (some (roundSum contribs 0), some (roundSum contribs 1))) := by
  intro n hn contribs h2 oldList r
  constructor
  · intro i
    refine ⟨?_, ?_, ?_, dirty_push_eq_fresh hn contribs oldList r i⟩
    · simp [pushStep, dirtyInit, clearShared]
    · simp [pushStep, dirtyInit, clearShared]
    · simp [pushStep, dirtyInit, clearShared]
  · intro c hre hdone
    rcases Relation.ReflTransGen.cases_head hre with heq | ⟨b, hstep, hrest⟩
    · exfalso
      have h0 := hdone ⟨0, hn⟩
      rw [← heq] at h0
      simp [dirtyInit, initTS] at h0
    · cases hstep with
      | pushS i0 h =>
        rw [dirty_push_eq_fresh hn contribs oldList r i0] at hrest
        have hfresh : Relation.ReflTransGen (Step contribs normalRed) (initConfig n) c :=
          Relation.ReflTransGen.head
            (Step.pushS (initConfig n) i0 (by simp [initConfig, initTS])) hrest
        exact final_res_eq hn h2 hfresh hdone
      | passPush i0 h h0 => exfalso; simp [dirtyInit, initTS] at h
      | reduceS i0 h => exfalso; simp [dirtyInit, initTS] at h
      | passReduce i0 h h0 => exfalso; simp [dirtyInit, initTS] at h
      | readS i0 h => exfalso; simp [dirtyInit, initTS] at h

theorem c4_witness :
    (pushStep (contribs1 0) (dirtyInit 1 [99, 98] 0) 0).list = contribs1 0 ∧
    (finalDirty1.threads 0).res = some (some 5, some 7) := by
  have h := c4_round_reset 1 (by norm_num) contribs1 (by decide) [99, 98] 0
  refine ⟨(h.1 0).1, ?_⟩
  have h2 := h.2 finalDirty1
    (runSched_reachable contribs1 normalRed [0, 0, 0, 0, 0] (dirtyInit 1 [99, 98] 0))
    (by decide) 0
  rw [h2]
  decide

/-- C5: at every point where the lock is released, the contribution
buffer holds exactly `arity * (worker_count - arrivals_remaining)`
entries (arity 2 here), and while the arrivals counter is at its full
value the buffer is empty; the predicate is preserved by every barrier
operation since it holds in every reachable configuration. -/
theorem c5_buffer_length_invariant :
    ∀ (n : Nat) (contribs : Fin n → List Int),
      (∀ i, (contribs i).length = 2) → ∀ (c : Config n),
      Relation.ReflTransGen (Step contribs normalRed) (initConfig n) c →
      ((c.list.length : Int) = 2 * ((n : Int) - c.push_tasks)) ∧
      (c.push_tasks = (n : Int) → c.list = []) := by
  intro n contribs h2 c hre
  obtain ⟨ord, dep, W⟩ := inv_reachable hre
  constructor
  · cases hdc : dep with
    | nil =>
      rw [W.hlist1 hdc, flatten_map_length contribs 2 h2, W.hpush]
      push_cast
      ring
    | cons d0 dt =>
      have hdne : dep ≠ [] := by rw [hdc]; simp
      have hl := W.hlist2 hdne
      simp only [normalRed, Option.some.injEq] at hl
      have hflen : ord.length = n :=
        W.hfull d0 (departed_pastWait
          ((W.dmem d0).mp (by rw [hdc]; exact List.mem_cons_self d0 dt)))
      have hlen : c.list.length = ord.length * 2 := by
        rw [← hl, allreduce_length, flatten_map_length contribs 2 h2]
      rw [hlen, W.hpush, hflen]
      push_cast
      ring
  · intro hpn
    have hord0 : ord.length = 0 := by
      have h1 := W.hpush
      rw [hpn] at h1
      omega
    have hordnil : ord = [] := List.length_eq_zero.mp hord0
    have hdep0 : dep = [] := by
      by_contra hne
      obtain ⟨j, hj⟩ := List.exists_mem_of_ne_nil dep hne
      have hfl := W.hfull j (departed_pastWait ((W.dmem j).mp hj))
      have := j.pos
      omega
    rw [W.hlist1 hdep0, hordnil]
    simp

theorem c5_witness :
    ((final2.list.length : Int) = 2 * ((2 : Int) - final2.push_tasks)) ∧
    (final2.push_tasks = (2 : Int) → final2.list = []) :=
  c5_buffer_length_invariant 2 contribs2 (by decide) final2
    (runSched_reachable contribs2 normalRed sched2 (initConfig 2))

/-- C6: when reduction is triggered the barrier asserts that the buffer
holds exactly `2 * worker_count` entries and, on failure, kills the
triggering caller without reducing or decrementing (halting forward
progress); under the precondition that all `worker_count` callers
contributed exactly 2 values each, the assertion never fails in any
reachable configuration, and at any trigger point the buffer length is
in fact `2 * worker_count`. -/
theorem c6_malformed_round_assert :
    (∀ (n : Nat) (contribs : Fin n → List Int), (∀ i, (contribs i).length = 2) →
       ∀ (c : Config n), Relation.ReflTransGen (Step contribs normalRed) (initConfig n) c →
       (∀ i, (c.threads i).pc ≠ PC.assertAborted) ∧
       (∀ i, (c.threads i).pc = PC.reduce → c.reduce_tasks = (c.nGPUs : Int) →
          c.list.length = 2 * c.nGPUs)) ∧
    (∀ (m : Nat) (d : Config m) (i : Fin m) (red : Nat → List Int → Option (List Int)),
       d.reduce_tasks = (d.nGPUs : Int) → d.list.length ≠ 2 * d.nGPUs →
       ((reduceStep red d i).threads i).pc = PC.assertAborted ∧
       (reduceStep red d i).list = d.list ∧
       (reduceStep red d i).reduce_tasks = d.reduce_tasks) := by
  constructor
  · intro n contribs h2 c hre
    refine ⟨no_assert_reachable h2 hre, ?_⟩
    intro i hpc htrig
    obtain ⟨ord, dep, W⟩ := inv_reachable hre
    exact trigger_length W h2 hpc htrig
  · intro m d i red h1 hne
    rw [reduceStep_eq_abort i h1 hne]
    exact ⟨setPC_threads_pc_same d i _, rfl, rfl⟩

theorem c6_witness :
    (∀ i : Fin 2, (final2.threads i).pc ≠ PC.assertAborted) ∧
    ((reduceStep normalRed dBad 0).threads 0).pc = PC.assertAborted ∧
    (reduceStep normalRed dBad 0).list = dBad.list := by
  refine ⟨(c6_malformed_round_assert.1 2 contribs2 (by decide) final2
    (runSched_reachable contribs2 normalRed sched2 (initConfig 2))).1, ?_, ?_⟩
  · exact (c6_malformed_round_assert.2 1 dBad 0 normalRed (by decide) (by decide)).1
  · exact (c6_malformed_round_assert.2 1 dBad 0 normalRed (by decide) (by decide)).2.1

/-- C8: if the Reducer deterministically raises for a round (the spec
fixes the Reducer to be a deterministic function of the buffer), then
no caller of that round is ever blocked at the reduce-phase wait or
completes: every caller that reaches the reduce section retries the
triggering branch (the counter was never decremented) and receives the
Reducer error itself, and when the system can make no further step
every caller has terminated with the Reducer error — an outcome
distinguishable from the malformed-round assertion failure. -/
theorem c8_reducer_failure_propagates :
    ∀ (n : Nat) (contribs : Fin n → List Int), (∀ i, (contribs i).length = 2) →
      ∀ (c : Config n), Relation.ReflTransGen (Step contribs failRed) (initConfig n) c →
      (∀ i, (c.threads i).pc ≠ PC.waitReduce ∧ (c.threads i).pc ≠ PC.readOut ∧
            (c.threads i).pc ≠ PC.done ∧ (c.threads i).pc ≠ PC.assertAborted) ∧
      ((∀ c1, ¬ Step contribs failRed c c1) →
        ∀ i, (c.threads i).pc = PC.reducerError) := by
  intro n contribs h2 c hre
  constructor
  · intro i
    rcases (fail_reachable_alive h2 hre).2 i with h | h | h | h <;> rw [h] <;>
      exact ⟨by simp, by simp, by simp, by simp⟩
  · exact fail_stuck_all_error h2 hre

theorem c8_witness :
    (∀ i : Fin 1, (finalFail1.threads i).pc ≠ PC.waitReduce ∧
       (finalFail1.threads i).pc ≠ PC.readOut ∧ (finalFail1.threads i).pc ≠ PC.done ∧
       (finalFail1.threads i).pc ≠ PC.assertAborted) ∧
    (finalFail1.threads 0).pc = PC.reducerError := by
  refine ⟨(c8_reducer_failure_propagates 1 contribs1 (by decide) finalFail1
    (runSched_reachable contribs1 failRed [0, 0, 0] (initConfig 1))).1, by decide⟩

end SyncBN
